import Mathlib

/-!
Verification development for the Automote repository (a LinkedIn public-profile
scraper).  JavaScript strings are modelled as `List Char`; the browser DOM and
the WHATWG URL parser are external collaborators and enter the model as plain
inputs.  Regular-expression matching from the source is modelled by specialised
leftmost-match scanners that follow the backtracking order of the JavaScript
regex engine on the concrete patterns appearing in the code.
-/

/-- The character class of the JavaScript `\s` regex escape (which is also the
set trimmed by `String.prototype.trim`): tab through carriage return, space,
no-break space, ogham space mark, the en-quad..hair-space block, line/paragraph
separators, narrow no-break space, medium mathematical space, ideographic
space, and the byte-order mark. -/
def isWs (c : Char) : Bool :=
  decide ((9 ≤ c.toNat ∧ c.toNat ≤ 13) ∨ c.toNat = 32 ∨ c.toNat = 160 ∨
    c.toNat = 5760 ∨ (8192 ≤ c.toNat ∧ c.toNat ≤ 8202) ∨ c.toNat = 8232 ∨
    c.toNat = 8233 ∨ c.toNat = 8239 ∨ c.toNat = 8287 ∨ c.toNat = 12288 ∨
    c.toNat = 65279)

/-- The JavaScript `\d` class. -/
def isDigit (c : Char) : Bool := '0' ≤ c && c ≤ '9'

/-- The JavaScript `\w` class: ASCII letters, digits and underscore. -/
def isWordChar (c : Char) : Bool :=
  ('a' ≤ c && c ≤ 'z') || ('A' ≤ c && c ≤ 'Z') || isDigit c || c = '_'

/-- Helper for `collapseWs`: the boolean records whether the previous input
character was whitespace (in which case the current run has already emitted
its single space). -/
def collapseWsAux : Bool → List Char → List Char
  | _, [] => []
  | prevWs, c :: cs =>
    if isWs c then
      if prevWs then collapseWsAux true cs
      else ' ' :: collapseWsAux true cs
    else c :: collapseWsAux false cs

/-- Model of the JavaScript idiom `s.replace(/\s+/g, " ")`: every maximal run
of whitespace becomes a single space. -/
def collapseWs (s : List Char) : List Char := collapseWsAux false s

/-- Helper for `jsTrim`: remove trailing whitespace (keep a character if
anything non-blank survives to its right). -/
def trimRight : List Char → List Char
  | [] => []
  | c :: cs =>
    match trimRight cs with
    | [] => if isWs c then [] else [c]
    | r => c :: r

/-- Model of `String.prototype.trim`: drop leading and trailing whitespace. -/
def jsTrim (s : List Char) : List Char := trimRight (s.dropWhile isWs)

/-- Lower-case a JavaScript string (ASCII case mapping, as in the profile
heading comparisons of the source; the scraped labels are ASCII). -/
def toLowerL (s : List Char) : List Char := s.map Char.toLower

/-- Model of `String.prototype.split(" ")`: split at every single space,
keeping empty fields (`"a  b"` yields `["a", "", "b"]`). -/
def splitSp : List Char → List (List Char)
  | [] => [[]]
  | c :: cs =>
    if c = ' ' then [] :: splitSp cs
    else
      match splitSp cs with
      | t :: ts => (c :: t) :: ts
      | [] => [[c]]

/-- Model of `arr.join(" ")`. -/
def joinSp (l : List (List Char)) : List Char := List.intercalate [' '] l

/-- Index of the first occurrence of `pat` in the scanned list (the second
argument accumulates the current index).  An empty pattern matches at the
current position, as in JavaScript. -/
def findSubAux (pat : List Char) : List Char → Nat → Option Nat
  | [], i => if pat.isPrefixOf ([] : List Char) then some i else none
  | c :: cs, i => if pat.isPrefixOf (c :: cs) then some i else findSubAux pat cs (i + 1)

/-- Model of `String.prototype.includes`. -/
def containsSub (s pat : List Char) : Bool := (findSubAux pat s 0).isSome

/-- Model of `s.replace(pat, repl)` with a plain-string `pat`: replace the
first occurrence only (no occurrence leaves the string unchanged; an empty
pattern matches at position 0, so the replacement is prepended). -/
def replFirst (pat repl s : List Char) : List Char :=
  match findSubAux pat s 0 with
  | none => s
  | some i => s.take i ++ repl ++ s.drop (i + pat.length)

/-- Fuel-indexed worker for `replAll`; each step either copies one character
or consumes a whole (non-empty) occurrence of the pattern, so `s.length` fuel
always suffices. -/
def replAllFuel (pat repl : List Char) : Nat → List Char → List Char
  | 0, s => s
  | _ + 1, [] => []
  | f + 1, c :: cs =>
    if pat ≠ [] && pat.isPrefixOf (c :: cs) then
      repl ++ replAllFuel pat repl f ((c :: cs).drop pat.length)
    else c :: replAllFuel pat repl f cs

/-- Model of `s.replace(/pat/g, repl)` for a literal pattern: replace every
occurrence, scanning left to right and never rescanning replaced text. -/
def replAll (pat repl s : List Char) : List Char := replAllFuel pat repl s.length s

/-- Helper for `dedupFirst`: drop elements already in `seen`, keeping the
first occurrence of each distinct element. -/
def dedupFirstAux (seen : List (List Char)) : List (List Char) → List (List Char)
  | [] => []
  | x :: xs =>
    if x ∈ seen then dedupFirstAux seen xs
    else x :: dedupFirstAux (x :: seen) xs

/-- Model of `[...new Set(arr)]`: de-duplicate by exact equality preserving
first-seen (insertion) order. -/
def dedupFirst (l : List (List Char)) : List (List Char) := dedupFirstAux [] l

/-! ## scrapper.js: `getSectionByHeading` and the output accumulator -/

/-- A rendered `h2` heading as the DOM hands it to the page script: its
`innerText` and, when present, the list-item texts of its closest enclosing
`section` element. -/
structure Heading where
  text : List Char
  section? : Option (List (List Char))

/-- The body of a matched section (scrapper.js lines 44-48): normalise the
whitespace of each list-item text, keep only entries longer than 25
characters, and de-duplicate preserving first-seen order. -/
def sectionItems (lis : List (List Char)) : List (List Char) :=
  dedupFirst ((lis.map fun t => jsTrim (collapseWs t)).filter fun t => 25 < t.length)

/-- The heading-match predicate of scrapper.js line 35-37:
`h.innerText.trim().toLowerCase() === heading.toLowerCase()`. -/
def headingMatches (label : List Char) (h : Heading) : Bool :=
  toLowerL (jsTrim h.text) == toLowerL label

/-- Model of `getSectionByHeading` (scrapper.js lines 32-49): find the first
heading whose trimmed lower-cased text equals the lower-cased label; with no
match, or a match without an enclosing section, return the empty list. -/
def getSectionByHeading (headings : List Heading) (label : List Char) :
    List (List Char) :=
  match headings.find? (headingMatches label) with
  | none => []
  | some h =>
    match h.section? with
    | none => []
    | some lis => sectionItems lis

/-- The normalisation named by the specification for heading matching:
trimmed, case-folded, whitespace-collapsed text. -/
def specNormalize (s : List Char) : List Char := collapseWs (toLowerL (jsTrim s))

/-- A value loaded from the persisted JSON output file: either a sequence of
records or a single non-sequence value. -/
inductive LoadedJson (α : Type) where
  | arr (items : List α)
  | single (value : α)

/-- The coercion step of the accumulator (scrapper.js lines 82-92):
`existingData` starts as `[]`; a loaded value replaces it; a loaded
non-sequence value is wrapped into a one-element sequence. -/
def coerceLoaded {α : Type} : Option (LoadedJson α) → List α
  | none => []
  | some (LoadedJson.arr l) => l
  | some (LoadedJson.single v) => [v]

/-- The whole accumulator (scrapper.js lines 82-98): coerce the loaded value
and push the new record; the resulting sequence is what `writeJson`
persists. -/
def appendRecord {α : Type} (loaded : Option (LoadedJson α)) (r : α) : List α :=
  coerceLoaded loaded ++ [r]

/-! ## linkedinscraper.js: URL validation and the retry loop -/

/-- The host and path components that `new URL` exposes to
`isValidLinkedInUrl`.  The WHATWG URL parser itself is a Node builtin
(an external collaborator), so it enters the model as a function argument:
`none` models the constructor throwing on a string that is not an absolute
URL. -/
structure UrlParts where
  hostname : List Char
  pathname : List Char

/-- Model of `isValidLinkedInUrl` (linkedinscraper.js lines 996-1004): parse
the string; on failure the `catch` returns `false`; otherwise require the
hostname to contain `linkedin.com` and the pathname to contain `/in/` or
`/pub/`. -/
def isValidLinkedInUrl (parseURL : List Char → Option UrlParts)
    (url : List Char) : Bool :=
  match parseURL url with
  | none => false
  | some p =>
    containsSub p.hostname ("linkedin.com".data) &&
    (containsSub p.pathname ("/in/".data) || containsSub p.pathname ("/pub/".data))

/-- Model of `detectAuthWall` (linkedinscraper.js lines 168-204): the page
environment supplies the fixed list of independent boolean signals (three URL
patterns, five DOM-marker counts, three text probes, three title keywords);
the wall is present if any signal is true. -/
def detectAuthWall (signals : List Bool) : Bool := signals.any id

/-- The outcome the environment assigns to one attempt of the retry loop:
success, a detected auth wall, or any thrown error (failed navigation,
too-short content, extraction error). -/
inductive AttemptOutcome where
  | success
  | authWall
  | errored
deriving DecidableEq

/-- The observable result of `scrapeLinkedInProfile` plus `main`'s exit
handling: how many attempts ran, the backoff waits performed (in order), how
many times the output store was written, and the process exit code. -/
structure RunResult where
  attempts : Nat
  backoffs : List Nat
  writes : Nat
  exitCode : Nat
deriving DecidableEq

/-- Worker for `scrapeLinkedInProfile`'s `while (retryCount < MAX_RETRIES &&
!success)` loop (lines 874-971), one constructor case per loop test.  `fuel`
is `maxRetries - retryCount`, so `fuel = 0` is exactly the exhausted-loop
exit, which `main` turns into exit code 1 (lines 986-988, 1034-1037); a
retry after the first waits `2000 * retryCount` before its attempt; only the
success branch calls `saveToJson`. -/
def scrapeGo (outcome : Nat → AttemptOutcome) :
    Nat → Nat → Nat → List Nat → RunResult
  | 0, _, att, bs => ⟨att, bs.reverse, 0, 1⟩
  | fuel + 1, rc, att, bs =>
    let bs' := if 0 < rc then 2000 * rc :: bs else bs
    match outcome rc with
    | AttemptOutcome.success => ⟨att + 1, bs'.reverse, 1, 0⟩
    | _ => scrapeGo outcome fuel (rc + 1) (att + 1) bs'

/-- Model of one run of `scrapeLinkedInProfile profileUrl` under `main`: the
environment decides each attempt's outcome; `maxRetries` is
`CONFIG.MAX_RETRIES`. -/
def scrapeLinkedInProfile (outcome : Nat → AttemptOutcome) (maxRetries : Nat) :
    RunResult :=
  scrapeGo outcome maxRetries 0 0 []

/-! ## part_000: `parseOneLineExperience` and its two regular expressions -/

/-- The twelve month-name alternatives of the date-range regex, in source
order. -/
def monthNames : List (List Char) :=
  ["Jan".data, "Feb".data, "Mar".data, "Apr".data, "May".data, "Jun".data,
   "Jul".data, "Aug".data, "Sep".data, "Oct".data, "Nov".data, "Dec".data]

/-- Match `\d{4}` at the head of the list, returning the consumed length. -/
def dig4 (s : List Char) : Option Nat :=
  if (s.take 4).length = 4 && (s.take 4).all isDigit then some 4 else none

/-- Match `\s?\d{4}` at the head of the list; the optional whitespace is
greedy, as in the regex engine. -/
def tailSD (s : List Char) : Option Nat :=
  match s with
  | [] => none
  | c :: cs =>
    if isWs c then
      match dig4 cs with
      | some m => some (m + 1)
      | none => dig4 (c :: cs)
    else dig4 (c :: cs)

/-- Backtracking for `\w+\s?\d{4}`: try `k` word characters for `k` from the
maximal run length down to 1 (the greedy preference order of the engine),
then `\s?\d{4}`. -/
def tryWplusFrom : Nat → List Char → Option Nat
  | 0, _ => none
  | k + 1, s =>
    match tailSD (s.drop (k + 1)) with
    | some m => some (k + 1 + m)
    | none => tryWplusFrom k s

/-- Match the second alternative `\w+\s?\d{4}` of the date-range regex at the
head of the list. -/
def matchWSD (s : List Char) : Option Nat :=
  tryWplusFrom (s.takeWhile isWordChar).length s

/-- Match the final group `(Present|\w+\s?\d{4})`: alternatives are tried in
source order. -/
def matchDurEnd (s : List Char) : Option Nat :=
  if ("Present".data).isPrefixOf s then some 7
  else matchWSD s

/-- Match `\d{4}\s-\s(Present|\w+\s?\d{4})` at the head of the list. -/
def matchDurCore (s : List Char) : Option Nat :=
  match dig4 s with
  | none => none
  | some _ =>
    match s.drop 4 with
    | [] => none
    | w1 :: r1 =>
      if isWs w1 then
        match r1 with
        | '-' :: w2 :: r3 =>
          if isWs w2 then
            match matchDurEnd r3 with
            | some m => some (7 + m)
            | none => none
          else none
        | _ => none
      else none

/-- Match `\s?\d{4}\s-\s(Present|\w+\s?\d{4})` at the head of the list
(greedy optional whitespace with backtracking). -/
def matchDurTail (s : List Char) : Option Nat :=
  match s with
  | [] => none
  | c :: cs =>
    if isWs c then
      match matchDurCore cs with
      | some m => some (m + 1)
      | none => matchDurCore (c :: cs)
    else matchDurCore (c :: cs)

/-- Match the whole date-range regex
`(Jan|Feb|Mar|Apr|May|Jun|Jul|Aug|Sep|Oct|Nov|Dec)?\s?\d{4}\s-\s(Present|\w+\s?\d{4})`
at the head of the list: the optional month group is greedy (tried first,
dropped on failure of the remainder). -/
def matchDurAt (s : List Char) : Option Nat :=
  if monthNames.any (fun m => m.isPrefixOf s) then
    match matchDurTail (s.drop 3) with
    | some m => some (3 + m)
    | none => matchDurTail s
  else matchDurTail s

/-- Case-insensitive literal prefix test (the pattern is given lower-case),
modelling a literal inside a `/.../i` regex over its ASCII letters. -/
def ciPrefix : List Char → List Char → Bool
  | [], _ => true
  | _ :: _, [] => false
  | p :: ps, c :: cs => c.toLower = p && ciPrefix ps cs

/-- Match the cumulative-duration regex `/\d+\s+year[s]?\s*\d*\s*month[s]?/i`
at the head of the list.  All quantifiers take their maximal runs; for this
pattern the greedy expansion is the only one that can succeed, because each
quantified class is disjoint from the character that must follow it. -/
def matchTTAt (s : List Char) : Option Nat :=
  let ds := s.takeWhile isDigit
  if ds.length = 0 then none else
  let s1 := s.drop ds.length
  let ws1 := s1.takeWhile isWs
  if ws1.length = 0 then none else
  let s2 := s1.drop ws1.length
  if ciPrefix ("year".data) s2 then
    let s3 := s2.drop 4
    let o1 : Nat := match s3 with
      | c :: _ => if c.toLower = 's' then 1 else 0
      | [] => 0
    let s4 := s3.drop o1
    let ws2 := s4.takeWhile isWs
    let s5 := s4.drop ws2.length
    let d2 := s5.takeWhile isDigit
    let s6 := s5.drop d2.length
    let ws3 := s6.takeWhile isWs
    let s7 := s6.drop ws3.length
    if ciPrefix ("month".data) s7 then
      let s8 := s7.drop 5
      let o2 : Nat := match s8 with
        | c :: _ => if c.toLower = 's' then 1 else 0
        | [] => 0
      some (ds.length + ws1.length + 4 + o1 + ws2.length + d2.length +
            ws3.length + 5 + o2)
    else none
  else none

/-- Leftmost-match driver for `String.prototype.match` with a non-global
regex: try every start position from the left and return the matched
substring of the first position that matches. -/
def scanMatch (f : List Char → Option Nat) : List Char → Option (List Char)
  | [] => (f []).map fun n => ([] : List Char).take n
  | c :: cs =>
    match f (c :: cs) with
    | some n => some ((c :: cs).take n)
    | none => scanMatch f cs

/-- One parsed experience line (part_000 lines 94-99).  `duration` and
`total_time` are `none` when the corresponding regex found no match. -/
structure ExperienceEntry where
  role : List Char
  company : List Char
  duration : Option (List Char)
  total_time : Option (List Char)
deriving DecidableEq

/-- The capitalisation scan of part_000 lines 82-89: starting at index 1,
return the index of the first token whose leading character equals its own
upper-casing (digits and symbols count), defaulting to 1.  A token that is
the empty string makes `parts[i][0]` come out `undefined`, so evaluating
`parts[i][0].toUpperCase()` throws a `TypeError`; that is the `error`
branch. -/
def findSplitIdx (parts : List (List Char)) : Except Unit Nat :=
  go (parts.drop 1) 1
where
  go : List (List Char) → Nat → Except Unit Nat
    | [], _ => Except.ok 1
    | [] :: _, _ => Except.error ()
    | (c :: _) :: ps, i =>
      if c = c.toUpper then Except.ok i else go ps (i + 1)

/-- One iteration of the `arr.map` callback of `parseOneLineExperience`
(part_000 lines 52-100): normalise whitespace, take the leftmost date-range
and cumulative-duration matches, remove both matched substrings (a `null`
match removes the empty string, a no-op), split the residual on single
spaces, and split role from company at the scanned index. -/
def parseLine (item : List Char) : Except Unit ExperienceEntry :=
  let text := jsTrim (collapseWs item)
  let duration := scanMatch matchDurAt text
  let total_time := scanMatch matchTTAt text
  let clean := jsTrim (replFirst (total_time.getD []) []
    (replFirst (duration.getD []) [] text))
  let parts := splitSp clean
  match findSplitIdx parts with
  | Except.error e => Except.error e
  | Except.ok si =>
    Except.ok ⟨joinSp (parts.take si), joinSp (parts.drop si), duration, total_time⟩

/-- Model of `parseOneLineExperience` (part_000 lines 51-101): map the
line parser over the raw lines; a thrown `TypeError` in the callback aborts
the whole `map`. -/
def parseOneLineExperience (arr : List (List Char)) :
    Except Unit (List ExperienceEntry) :=
  arr.mapM parseLine

/-! ## linkedinscraper.js: `cleanText` and `extractPublicProfileData` -/

/-- Model of `String.fromCharCode`: the argument is reduced to a UTF-16 code
unit.  JavaScript can produce a lone surrogate here, which a Lean `Char`
cannot represent; `Char.ofNat` then yields the null character instead (the
scrapes under verification never reach that range). -/
def jsFromCharCode (n : Nat) : Char := Char.ofNat (n % 65536)

/-- Numeric value of a decimal digit string, as `parseInt(s, 10)` computes it
on an all-digit input. -/
def parseNatDigits (ds : List Char) : Nat :=
  ds.foldl (fun a c => 10 * a + (c.toNat - 48)) 0

/-- A hexadecimal digit as matched by `[0-9a-f]` under the `/i` flag. -/
def isHexDigit (c : Char) : Bool :=
  isDigit c || ('a' ≤ c && c ≤ 'f') || ('A' ≤ c && c ≤ 'F')

/-- Numeric value of one hexadecimal digit. -/
def hexVal (c : Char) : Nat :=
  if isDigit c then c.toNat - 48
  else if 'a' ≤ c && c ≤ 'f' then c.toNat - 87
  else c.toNat - 55

/-- Numeric value of a hexadecimal digit string, as `parseInt(s, 16)`
computes it on an all-hex-digit input. -/
def parseHexDigits (ds : List Char) : Nat :=
  ds.foldl (fun a c => 16 * a + hexVal c) 0

/-- Worker for the `/&#\d+;/g` replacement of `cleanText`: each decimal
character reference becomes the character `String.fromCharCode` yields for
its digits.  Replaced text is not rescanned.  One fuel unit consumes at
least one input character, so `s.length` fuel suffices. -/
def decDecFuel : Nat → List Char → List Char
  | 0, s => s
  | _ + 1, [] => []
  | f + 1, c :: cs =>
    if c = '&' then
      match cs with
      | '#' :: cs2 =>
        let ds := cs2.takeWhile isDigit
        match ds, cs2.drop ds.length with
        | _ :: _, ';' :: rest => jsFromCharCode (parseNatDigits ds) :: decDecFuel f rest
        | _, _ => '&' :: decDecFuel f cs
      | _ => '&' :: decDecFuel f cs
    else c :: decDecFuel f cs

/-- The `/&#\d+;/g` replacement pass of `cleanText`. -/
def decDec (s : List Char) : List Char := decDecFuel s.length s

/-- Worker for the `/&#x[0-9a-f]+;/gi` replacement of `cleanText`.  The
match is case-insensitive, but the inner `match.replace(/&#x|;/g, "")` is
case-sensitive: a match written with an upper-case `X` keeps its `&#X`
prefix, `parseInt` returns `NaN`, and `String.fromCharCode(NaN)` is the null
character. -/
def hexDecFuel : Nat → List Char → List Char
  | 0, s => s
  | _ + 1, [] => []
  | f + 1, c :: cs =>
    if c = '&' then
      match cs with
      | '#' :: xc :: cs2 =>
        if xc.toLower = 'x' then
          let ds := cs2.takeWhile isHexDigit
          match ds, cs2.drop ds.length with
          | _ :: _, ';' :: rest =>
            (if xc = 'x' then jsFromCharCode (parseHexDigits ds) else Char.ofNat 0) ::
              hexDecFuel f rest
          | _, _ => '&' :: hexDecFuel f cs
        else '&' :: hexDecFuel f cs
      | _ => '&' :: hexDecFuel f cs
    else c :: hexDecFuel f cs

/-- The `/&#x[0-9a-f]+;/gi` replacement pass of `cleanText`. -/
def hexDec (s : List Char) : List Char := hexDecFuel s.length s

/-- Model of `cleanText` (linkedinscraper.js lines 813-840), in source
order: collapse whitespace runs, replace the six literal entities, decode
decimal then hexadecimal character references, and trim.  A null or empty
input yields the empty string, which the chain already does. -/
def cleanText (s : List Char) : List Char :=
  jsTrim (hexDec (decDec
    (replAll ("&#x27;".data) [Char.ofNat 39]
    (replAll ("&#39;".data) [Char.ofNat 39]
    (replAll ("&quot;".data) ("\"".data)
    (replAll ("&gt;".data) (">".data)
    (replAll ("&lt;".data) ("<".data)
    (replAll ("&amp;".data) ("&".data)
    (replAll ("&nbsp;".data) (" ".data)
    (collapseWs s))))))))))

/-- One retained JSON-LD block (`@type` Person or ProfilePage), reduced to
the fields `extractPublicProfileData` reads; a missing or falsy field is the
empty string, and `address` subfields are flattened the same way. -/
structure JsonLdPerson where
  name : List Char
  jobTitle : List Char
  description : List Char
  addressLocality : List Char
  addressRegion : List Char
  addressCountry : List Char
deriving DecidableEq

/-- The inputs the page and markup hand to `extractPublicProfileData`:
the meta-tag values already produced by `extractMetaTags` (hence already
cleaned), the `h1` text (the empty string when the locator failed, per the
attached `.catch`), the `textContent` result of each fallback selector in
source order (`none` models a throwing/timed-out locator, skipped by its
`catch`), and the retained JSON-LD blocks in document order. -/
structure PageEnv where
  title : List Char
  metaDescription : List Char
  ogTitle : List Char
  ogDescription : List Char
  h1Text : List Char
  selName : List (Option (List Char))
  selHeadline : List (Option (List Char))
  selLocation : List (Option (List Char))
  selAbout : List (Option (List Char))
  jsonLd : List JsonLdPerson
deriving DecidableEq

/-- The four scalar profile fields whose resolution chains the claims are
about.  In the source they are initialised to the empty string and are
always present on the returned object; `title`, `meta_description` and
`profile_image` are copied or resolved the same way and are omitted from the
model. -/
structure ProfileScalars where
  name : List Char
  headline : List Char
  location : List Char
  about : List Char
deriving DecidableEq

/-- The token before the first `|`, `-`, en- or em-dash, as
`meta.title.split(/[\|\-–—]/)[0]` computes it. -/
def titleFirstPart (t : List Char) : List Char :=
  t.takeWhile fun c => ¬(c = '|' ∨ c = '-' ∨ c = '–' ∨ c = '—')

/-- The selector fallback loop (lines 733-747) for one field: a throwing
locator is skipped; the first selector whose raw text is non-empty assigns
the cleaned text — and breaks out of the list — but only when the field is
still unresolved. -/
def selResolve (cur : List Char) : List (Option (List Char)) → List Char
  | [] => cur
  | none :: rest => selResolve cur rest
  | some t :: rest =>
    if t ≠ [] ∧ cur = [] then cleanText t
    else selResolve cur rest

/-- The three sequential location sub-steps of one JSON-LD merge iteration
(lines 773-782): take `addressLocality` only when the location is still
unresolved, then append region and country to an already non-empty
location (including one set by the locality step of this same
iteration). -/
def jsonLdLocation (loc : List Char) (d : JsonLdPerson) : List Char :=
  let l1 := if d.addressLocality ≠ [] ∧ loc = [] then d.addressLocality else loc
  let l2 := if d.addressRegion ≠ [] ∧ l1 ≠ [] then
      l1 ++ (", ".data) ++ d.addressRegion else l1
  if d.addressCountry ≠ [] ∧ l2 ≠ [] then
      l2 ++ (", ".data) ++ d.addressCountry else l2

/-- One iteration of the JSON-LD merge loop (lines 756-783): each field is
taken only if truthy in the block and still unresolved.  In the source the
six guarded assignments run in sequence, but each of name, headline and
about is touched by exactly one of them, so the iteration acts on the fields
independently, with the three location assignments chained in
`jsonLdLocation`. -/
def jsonLdStep (s : ProfileScalars) (d : JsonLdPerson) : ProfileScalars :=
  { name := if d.name ≠ [] ∧ s.name = [] then d.name else s.name
    headline := if d.jobTitle ≠ [] ∧ s.headline = [] then d.jobTitle else s.headline
    location := jsonLdLocation s.location d
    about := if d.description ≠ [] ∧ s.about = [] then d.description else s.about }

/-- The name candidate after the meta-tag phase (lines 671-681): og:title
when truthy, else the cleaned first token of the page title when truthy,
else unresolved. -/
def nameFromMeta (e : PageEnv) : List Char :=
  if e.ogTitle ≠ [] then e.ogTitle
  else if e.title ≠ [] then cleanText (titleFirstPart e.title) else []

/-- The headline candidate after the meta-tag phase (lines 684-689). -/
def headlineFromMeta (e : PageEnv) : List Char :=
  if e.ogDescription ≠ [] then e.ogDescription
  else if e.metaDescription ≠ [] then e.metaDescription else []

/-- The name candidate after the `h1` step (lines 700-704): the cleaned `h1`
text is taken only when truthy and the field is still unresolved. -/
def nameFromPage (e : PageEnv) : List Char :=
  if e.h1Text ≠ [] ∧ nameFromMeta e = [] then cleanText e.h1Text else nameFromMeta e

/-- Model of the scalar-field resolution of `extractPublicProfileData`
(linkedinscraper.js lines 650-806), in source order: og:title, else the
page title's first token (cleaned); og:description, else the meta
description; then the `h1` text; then the per-field selector fallbacks; and
the JSON-LD blocks last. -/
def extractPublicProfileData (e : PageEnv) : ProfileScalars :=
  e.jsonLd.foldl jsonLdStep
    { name := selResolve (nameFromPage e) e.selName
      headline := selResolve (headlineFromMeta e) e.selHeadline
      location := selResolve [] e.selLocation
      about := selResolve [] e.selAbout }

/-- The subject name the structured data provides: the `name` of the first
JSON-LD block with a truthy `name` (the one the merge loop would use). -/
def firstNonEmptyName : List JsonLdPerson → List Char
  | [] => []
  | d :: ds => if d.name ≠ [] then d.name else firstNonEmptyName ds

/-! ## Concrete instances used by witnesses and counterexamples -/

/-- All fourteen auth-wall signals false: a page on which extraction
proceeds. -/
def allSignalsFalse : List Bool :=
  [false, false, false, false, false, false, false,
   false, false, false, false, false, false, false]

/-- A page carrying both a social-preview title and a structured-data
subject name, with every other source empty. -/
def cexEnv : PageEnv where
  title := []
  metaDescription := []
  ogTitle := "Og Name".data
  ogDescription := []
  h1Text := []
  selName := [none, none, none, none]
  selHeadline := [none, none, none, none]
  selLocation := [none, none, none]
  selAbout := [none, none, none]
  jsonLd := [⟨"Json Name".data, [], [], [], [], []⟩]

/-- A page on which no source produces any value. -/
def emptyPageEnv : PageEnv where
  title := []
  metaDescription := []
  ogTitle := []
  ogDescription := []
  h1Text := []
  selName := [none, none, none, none]
  selHeadline := [none, none, none, none]
  selLocation := [none, none, none]
  selAbout := [none, none, none]
  jsonLd := []

/-- The raw line of the specification's Scenario A. -/
def scenarioALine : List Char :=
  "Software Engineer Google 2020 - Present 1 year 2 months".data

/-- A raw line on which removing the matched cumulative-duration substring
leaves a double space, producing an empty token at index 1 of the residual
split. -/
def crashLine : List Char := "a 1 year 1 month b".data

/-- A page environment whose only source values are whitespace-only: the
`h1` text and one name selector produce text that cleans to the empty
string. -/
def wsPageEnv : PageEnv :=
  { emptyPageEnv with
      h1Text := " ".data
      selName := [none, some ("  ".data), none, none] }

/-- List-item texts of a demo Skills section: two long entries (one
repeated) and one short noise entry. -/
def demoSkillsItems : List (List Char) :=
  ["Distributed systems and event-driven design".data,
   "short".data,
   "  Distributed systems   and event-driven design ".data,
   "Profiling and performance tuning of services".data]

/-- The demo Skills heading, enclosed in a section holding
`demoSkillsItems`. -/
def demoSkillsHeading : Heading :=
  { text := "  Skills ".data, section? := some demoSkillsItems }

/-- A demo page containing only the Skills heading. -/
def demoSkillsPage : List Heading := [demoSkillsHeading]

/-- Two adjacent characters are not both whitespace. -/
def NoTwoWs (a b : Char) : Prop := ¬(isWs a = true ∧ isWs b = true)

/-- A string in the image of whitespace collapsing: every whitespace
character is a plain space and no two adjacent characters are whitespace. -/
def Collapsed (l : List Char) : Prop :=
  (∀ c ∈ l, isWs c = true → c = ' ') ∧ l.Chain' NoTwoWs

/-! ## Helper lemmas -/

theorem mem_dedupFirstAux (x : List Char) :
    ∀ (l seen : List (List Char)), x ∈ dedupFirstAux seen l ↔ x ∈ l ∧ x ∉ seen := by
  intro l
  induction l with
  | nil => intro seen; simp [dedupFirstAux]
  | cons a l ih =>
    intro seen
    by_cases h : a ∈ seen
    · simp only [dedupFirstAux, if_pos h, ih seen, List.mem_cons]
      constructor
      · rintro ⟨hx, hns⟩; exact ⟨Or.inr hx, hns⟩
      · rintro ⟨hx | hx, hns⟩
        · exact absurd (hx ▸ h) hns
        · exact ⟨hx, hns⟩
    · simp only [dedupFirstAux, if_neg h, List.mem_cons, ih (a :: seen)]
      constructor
      · rintro (rfl | ⟨hx, hns⟩)
        · exact ⟨Or.inl rfl, h⟩
        · exact ⟨Or.inr hx, fun hc => hns (Or.inr hc)⟩
      · rintro ⟨hx | hx, hns⟩
        · exact Or.inl hx
        · by_cases hxa : x = a
          · exact Or.inl hxa
          · exact Or.inr ⟨hx, fun hc => by
              rcases hc with h1 | h1
              · exact hxa h1
              · exact hns h1⟩

theorem nodup_dedupFirstAux :
    ∀ (l seen : List (List Char)), (dedupFirstAux seen l).Nodup := by
  intro l
  induction l with
  | nil => intro seen; simp [dedupFirstAux]
  | cons a l ih =>
    intro seen
    by_cases h : a ∈ seen
    · simpa only [dedupFirstAux, if_pos h] using ih seen
    · simp only [dedupFirstAux, if_neg h]
      refine List.nodup_cons.mpr ⟨fun hc => ?_, ih (a :: seen)⟩
      exact ((mem_dedupFirstAux a l (a :: seen)).mp hc).2 (List.mem_cons_self a seen)

theorem dedupFirstAux_sublist :
    ∀ (l seen : List (List Char)), List.Sublist (dedupFirstAux seen l) l := by
  intro l
  induction l with
  | nil => intro seen; simp [dedupFirstAux]
  | cons a l ih =>
    intro seen
    by_cases h : a ∈ seen
    · simpa only [dedupFirstAux, if_pos h] using (ih seen).cons a
    · simpa only [dedupFirstAux, if_neg h] using (ih (a :: seen)).cons₂ a

/-! ## Claim theorems -/

/-- C4.  For every prior persisted value (a sequence, a single non-sequence
object, or no file at all) and every new record: the accumulator coerces a
non-sequence loaded value into a one-element sequence, appends the new
record, and the persisted sequence is one longer than the coerced loaded
collection, ends with the new record, and keeps all earlier elements
unchanged. -/
theorem appendRecord_roundtrip {α : Type} (loaded : Option (LoadedJson α)) (r : α) :
    (appendRecord loaded r).length = (coerceLoaded loaded).length + 1 ∧
    (appendRecord loaded r).getLast? = some r ∧
    (appendRecord loaded r).take (coerceLoaded loaded).length = coerceLoaded loaded ∧
    ∀ v : α, coerceLoaded (some (LoadedJson.single v)) = [v] := by
  refine ⟨?_, ?_, ?_, fun v => rfl⟩
  · simp [appendRecord]
  · exact List.getLast?_concat _
  · exact List.take_left _ _

/-- C10.  `isValidLinkedInUrl` is total over all input strings: it returns
`true` exactly when the input parses as an absolute URL whose hostname
contains `linkedin.com` and whose pathname contains `/in/` or `/pub/`; for
every string the URL constructor rejects (`parseURL` returns `none`, the
`catch` branch) it returns `false` rather than throwing. -/
theorem isValidLinkedInUrl_spec (parseURL : List Char → Option UrlParts)
    (url : List Char) :
    isValidLinkedInUrl parseURL url = true ↔
    ∃ p, parseURL url = some p ∧
      containsSub p.hostname ("linkedin.com".data) = true ∧
      (containsSub p.pathname ("/in/".data) = true ∨
       containsSub p.pathname ("/pub/".data) = true) := by
  unfold isValidLinkedInUrl
  cases h : parseURL url with
  | none => simp
  | some p => simp [Bool.and_eq_true, Bool.or_eq_true]

/-- C5.  With a configured maximum of 3 retries and every attempt detecting
an auth wall, the run performs exactly 3 sequential attempts, waits the
backoffs 2000·1 and 2000·2 before the second and third attempts, never
writes the output store, and terminates with a non-zero exit status. -/
theorem scrapeLinkedInProfile_exhausted (outcome : Nat → AttemptOutcome)
    (h : ∀ i, outcome i = AttemptOutcome.authWall) :
    scrapeLinkedInProfile outcome 3 =
      { attempts := 3, backoffs := [2000, 4000], writes := 0, exitCode := 1 } := by
  have hfun : outcome = fun _ => AttemptOutcome.authWall := funext h
  subst hfun
  decide

/-- Witness for C5 at the constant all-auth-wall environment. -/
theorem scrapeLinkedInProfile_exhausted_witness :
    scrapeLinkedInProfile (fun _ => AttemptOutcome.authWall) 3 =
      { attempts := 3, backoffs := [2000, 4000], writes := 0, exitCode := 1 } :=
  scrapeLinkedInProfile_exhausted (fun _ => AttemptOutcome.authWall) (fun _ => rfl)

/-- C2 (code bug).  The claim says `parseOneLineExperience` never throws,
but on the raw line `"a 1 year 1 month b"` removing the matched
cumulative-duration substring leaves `"a  b"`, whose split contains the
empty token `""` at index 1; `parts[1][0]` is then `undefined` and
`undefined.toUpperCase()` throws a `TypeError`, modelled by the `error`
result. -/
theorem parseOneLineExperience_throws :
    parseOneLineExperience [crashLine] = Except.error () := rfl

/-- C3 counterexample.  On Scenario A's raw line the produced record is not
the one the claim states: the leftmost date-range match starts at the space
before `2020` (the regex's optional leading `\s?` consumes it), so the
`duration` field is `" 2020 - Present"`, not `"2020 - Present"`. -/
theorem parseOneLineExperience_scenarioA_cex :
    parseOneLineExperience [scenarioALine] = Except.ok
      [{ role := "Software".data, company := "Engineer Google".data,
         duration := some (" 2020 - Present".data),
         total_time := some ("1 year 2 months".data) }] ∧
    some (" 2020 - Present".data) ≠ some ("2020 - Present".data) :=
  ⟨rfl, by decide⟩

/-- C3 (amended).  Scenario A's raw line parses to role `"Software"`,
company `"Engineer Google"`, cumulative duration `"1 year 2 months"`, and
date range `" 2020 - Present"` (with the leading space captured by the
regex); the residual is split at index 1 — here because the scan finds the
upper-case token `Engineer` there, which coincides with the default. -/
theorem parseOneLineExperience_scenarioA :
    parseOneLineExperience [scenarioALine] = Except.ok
      [{ role := "Software".data, company := "Engineer Google".data,
         duration := some (" 2020 - Present".data),
         total_time := some ("1 year 2 months".data) }] := rfl

theorem selResolve_of_ne (cur : List Char) (h : cur ≠ []) :
    ∀ l, selResolve cur l = cur := by
  intro l
  induction l with
  | nil => rfl
  | cons o rest ih =>
    cases o with
    | none => simpa only [selResolve] using ih
    | some t =>
      simp only [selResolve]
      rw [if_neg (by rintro ⟨-, h2⟩; exact h h2)]
      exact ih

theorem selResolve_empty (l : List (Option (List Char)))
    (h : ∀ t, some t ∈ l → cleanText t = []) :
    selResolve [] l = [] := by
  induction l with
  | nil => rfl
  | cons o rest ih =>
    cases o with
    | none =>
      simp only [selResolve]
      exact ih fun t ht => h t (List.mem_cons_of_mem _ ht)
    | some t =>
      simp only [selResolve]
      split_ifs with hc
      · exact h t (List.mem_cons_self _ _)
      · exact ih fun t' ht' => h t' (List.mem_cons_of_mem _ ht')

theorem jsonLdStep_name_of_ne (s : ProfileScalars) (d : JsonLdPerson)
    (h : s.name ≠ []) : (jsonLdStep s d).name = s.name := by
  simp [jsonLdStep, h]

theorem jsonLdStep_name_of_empty (s : ProfileScalars) (d : JsonLdPerson)
    (h : s.name = []) :
    (jsonLdStep s d).name = if d.name = [] then [] else d.name := by
  by_cases hd : d.name = [] <;> simp [jsonLdStep, h, hd]

theorem jsonLdStep_all_empty (s : ProfileScalars) (d : JsonLdPerson)
    (hn : d.name = []) (hj : d.jobTitle = []) (hd : d.description = [])
    (hl : d.addressLocality = []) (hloc : s.location = []) :
    jsonLdStep s d = s := by
  obtain ⟨n, hdl, loc, ab⟩ := s
  simp only at hloc
  subst hloc
  simp [jsonLdStep, jsonLdLocation, hn, hj, hd, hl]

theorem foldl_jsonLdStep_name_of_ne (ds : List JsonLdPerson) :
    ∀ s : ProfileScalars, s.name ≠ [] → (ds.foldl jsonLdStep s).name = s.name := by
  induction ds with
  | nil => intro s _; rfl
  | cons d ds ih =>
    intro s h
    rw [List.foldl_cons, ih _ (by rw [jsonLdStep_name_of_ne s d h]; exact h)]
    exact jsonLdStep_name_of_ne s d h

theorem foldl_jsonLdStep_name (ds : List JsonLdPerson) :
    ∀ s : ProfileScalars, s.name = [] →
    (ds.foldl jsonLdStep s).name = firstNonEmptyName ds := by
  induction ds with
  | nil => intro s h; simpa [firstNonEmptyName] using h
  | cons d ds ih =>
    intro s h
    rw [List.foldl_cons]
    by_cases hd : d.name = []
    · rw [ih _ (by rw [jsonLdStep_name_of_empty s d h, if_pos hd])]
      simp [firstNonEmptyName, hd]
    · rw [foldl_jsonLdStep_name_of_ne ds _
        (by rw [jsonLdStep_name_of_empty s d h, if_neg hd]; exact hd)]
      rw [jsonLdStep_name_of_empty s d h, if_neg hd]
      simp [firstNonEmptyName, hd]

theorem foldl_jsonLdStep_all_empty (ds : List JsonLdPerson)
    (h : ∀ d ∈ ds, d.name = [] ∧ d.jobTitle = [] ∧ d.description = [] ∧
      d.addressLocality = []) :
    ds.foldl jsonLdStep { name := [], headline := [], location := [], about := [] } =
      { name := [], headline := [], location := [], about := [] } := by
  induction ds with
  | nil => rfl
  | cons d ds ih =>
    rw [List.foldl_cons]
    obtain ⟨hn, hj, hd, hl⟩ := h d (List.mem_cons_self _ _)
    rw [jsonLdStep_all_empty _ _ hn hj hd hl rfl]
    exact ih fun d' hd' => h d' (List.mem_cons_of_mem _ hd')

/-- C7.  For every matched section, the sequence `getSectionByHeading`
returns is duplicate-free, is a sublist (hence first-seen-order-preserving
subsequence) of the normalised-and-length-filtered list-item texts, contains
every such filtered text, and each element is a whitespace-normalised
list-item text longer than 25 characters. -/
theorem getSectionByHeading_items (hs : List Heading) (label : List Char)
    (h : Heading) (lis : List (List Char))
    (hfind : hs.find? (headingMatches label) = some h)
    (hsec : h.section? = some lis) :
    (getSectionByHeading hs label).Nodup ∧
    List.Sublist (getSectionByHeading hs label)
      ((lis.map fun t => jsTrim (collapseWs t)).filter fun t => 25 < t.length) ∧
    (∀ x ∈ (lis.map fun t => jsTrim (collapseWs t)).filter fun t => 25 < t.length,
      x ∈ getSectionByHeading hs label) ∧
    ∀ x ∈ getSectionByHeading hs label,
      25 < x.length ∧ ∃ li ∈ lis, x = jsTrim (collapseWs li) := by
  have hr : getSectionByHeading hs label = sectionItems lis := by
    unfold getSectionByHeading
    rw [hfind]
    simp only [hsec]
  rw [hr]
  unfold sectionItems dedupFirst
  refine ⟨nodup_dedupFirstAux _ _, dedupFirstAux_sublist _ _, ?_, ?_⟩
  · intro x hx
    exact (mem_dedupFirstAux x _ _).mpr ⟨hx, List.not_mem_nil x⟩
  · intro x hx
    have hx1 := ((mem_dedupFirstAux x _ _).mp hx).1
    obtain ⟨hmap, hlen⟩ := List.mem_filter.mp hx1
    obtain ⟨li, hli, rfl⟩ := List.mem_map.mp hmap
    exact ⟨by simpa using hlen, li, hli, rfl⟩

/-- Witness for C7 on the demo Skills page: the matched section is found and
the theorem's conclusions hold there. -/
theorem getSectionByHeading_items_witness :
    (getSectionByHeading demoSkillsPage ("Skills".data)).Nodup ∧
    List.Sublist (getSectionByHeading demoSkillsPage ("Skills".data))
      ((demoSkillsItems.map fun t => jsTrim (collapseWs t)).filter
        fun t => 25 < t.length) ∧
    (∀ x ∈ (demoSkillsItems.map fun t => jsTrim (collapseWs t)).filter
        fun t => 25 < t.length,
      x ∈ getSectionByHeading demoSkillsPage ("Skills".data)) ∧
    ∀ x ∈ getSectionByHeading demoSkillsPage ("Skills".data),
      25 < x.length ∧ ∃ li ∈ demoSkillsItems, x = jsTrim (collapseWs li) :=
  getSectionByHeading_items demoSkillsPage ("Skills".data) demoSkillsHeading
    demoSkillsItems rfl rfl

/-- C1 counterexample.  On a page with all auth-wall signals false, a
structured-data subject name, and a social-preview title, the resolved name
is the og:title value, not the structured-data name: the precedence chain
puts the social-preview title first and the JSON-LD name last. -/
theorem extractName_og_beats_jsonLd :
    detectAuthWall allSignalsFalse = false ∧
    firstNonEmptyName cexEnv.jsonLd = "Json Name".data ∧
    ("Json Name".data ≠ ([] : List Char)) ∧
    cexEnv.ogTitle ≠ [] ∧
    (extractPublicProfileData cexEnv).name ≠ "Json Name".data := by
  exact ⟨rfl, rfl, by decide, by decide, by decide⟩

/-- C1 (amended).  With the auth-wall signals all false, resolution iterates
the chain og:title → page-title token → h1 → selector fallbacks →
structured-data name; the first non-empty value wins and later sources never
overwrite it: a non-empty og:title is always the resolved name, and the
structured-data subject name is resolved only when every earlier source
produced nothing. -/
theorem extractName_precedence (signals : List Bool) (e : PageEnv)
    (hW : detectAuthWall signals = false) :
    (e.ogTitle ≠ [] → (extractPublicProfileData e).name = e.ogTitle) ∧
    (e.ogTitle = [] → e.title = [] → cleanText e.h1Text = [] →
      (∀ t, some t ∈ e.selName → cleanText t = []) →
      (extractPublicProfileData e).name = firstNonEmptyName e.jsonLd) := by
  constructor
  · intro hOg
    have h1 : nameFromMeta e = e.ogTitle := if_pos hOg
    have h2 : nameFromPage e = e.ogTitle := by
      unfold nameFromPage
      rw [if_neg, h1]
      rintro ⟨-, hc⟩
      rw [h1] at hc
      exact hOg hc
    have h3 : selResolve (nameFromPage e) e.selName = e.ogTitle := by
      rw [h2]
      exact selResolve_of_ne _ hOg _
    unfold extractPublicProfileData
    rw [foldl_jsonLdStep_name_of_ne e.jsonLd _ (by simpa [h3] using hOg)]
    exact h3
  · intro hOg hTitle hH1 hSel
    have h1 : nameFromMeta e = [] := by
      unfold nameFromMeta
      rw [if_neg fun hc => hc hOg, if_neg fun hc => hc hTitle]
    have h2 : nameFromPage e = [] := by
      unfold nameFromPage
      by_cases hh : e.h1Text ≠ [] ∧ nameFromMeta e = []
      · rw [if_pos hh]; exact hH1
      · rw [if_neg hh]; exact h1
    have h3 : selResolve (nameFromPage e) e.selName = [] := by
      rw [h2]
      exact selResolve_empty _ hSel
    unfold extractPublicProfileData
    exact foldl_jsonLdStep_name e.jsonLd _ (by simpa using h3)

/-- Witness for C1 (amended): on the combined-sources page the resolved name
is the og:title value. -/
theorem extractName_precedence_witness :
    (extractPublicProfileData cexEnv).name = cexEnv.ogTitle :=
  (extractName_precedence allSignalsFalse cexEnv rfl).1 (by decide)

/-- C9 counterexample.  The extractor initialises every scalar field to the
empty string and returns the record with those fields still present: on a
page where no source produces a value, `name`, `headline`, `location` and
`about` are all the empty string — not absent, and not non-empty. -/
theorem extractScalars_empty_strings :
    extractPublicProfileData emptyPageEnv =
      { name := [], headline := [], location := [], about := [] } := rfl

/-- C9 (amended).  Every scalar field of the produced record is always
present as a (possibly empty) string; the empty string — not absence —
marks a field for which no source produced a usable value: whenever every
source for a field is empty or cleans to the empty string, that field of
the result is the empty string. -/
theorem extractScalars_empty_of_no_source (e : PageEnv)
    (hOg : e.ogTitle = []) (hTitle : e.title = [])
    (hOgD : e.ogDescription = []) (hMetaD : e.metaDescription = [])
    (hH1 : cleanText e.h1Text = [])
    (hSN : ∀ t, some t ∈ e.selName → cleanText t = [])
    (hSH : ∀ t, some t ∈ e.selHeadline → cleanText t = [])
    (hSL : ∀ t, some t ∈ e.selLocation → cleanText t = [])
    (hSA : ∀ t, some t ∈ e.selAbout → cleanText t = [])
    (hJ : ∀ d ∈ e.jsonLd, d.name = [] ∧ d.jobTitle = [] ∧ d.description = [] ∧
      d.addressLocality = []) :
    extractPublicProfileData e =
      { name := [], headline := [], location := [], about := [] } := by
  have h1 : nameFromMeta e = [] := by
    unfold nameFromMeta
    rw [if_neg fun hc => hc hOg, if_neg fun hc => hc hTitle]
  have h2 : nameFromPage e = [] := by
    unfold nameFromPage
    by_cases hh : e.h1Text ≠ [] ∧ nameFromMeta e = []
    · rw [if_pos hh]; exact hH1
    · rw [if_neg hh]; exact h1
  have h3 : headlineFromMeta e = [] := by
    unfold headlineFromMeta
    rw [if_neg fun hc => hc hOgD, if_neg fun hc => hc hMetaD]
  have s1 : selResolve (nameFromPage e) e.selName = [] := by
    rw [h2]; exact selResolve_empty _ hSN
  have s2 : selResolve (headlineFromMeta e) e.selHeadline = [] := by
    rw [h3]; exact selResolve_empty _ hSH
  have s3 : selResolve [] e.selLocation = [] := selResolve_empty _ hSL
  have s4 : selResolve [] e.selAbout = [] := selResolve_empty _ hSA
  unfold extractPublicProfileData
  rw [s1, s2, s3, s4]
  exact foldl_jsonLdStep_all_empty e.jsonLd hJ

/-- Witness for C9 (amended) on a page whose only source values are
whitespace-only (they clean to the empty string): every scalar field of the
result is the empty string. -/
theorem extractScalars_empty_of_no_source_witness :
    extractPublicProfileData wsPageEnv =
      { name := [], headline := [], location := [], about := [] } :=
  extractScalars_empty_of_no_source wsPageEnv rfl rfl rfl rfl rfl
    (by intro t ht; simp [wsPageEnv, emptyPageEnv] at ht; subst ht; decide)
    (by intro t ht; simp [wsPageEnv, emptyPageEnv] at ht)
    (by intro t ht; simp [wsPageEnv, emptyPageEnv] at ht)
    (by intro t ht; simp [wsPageEnv, emptyPageEnv] at ht)
    (by intro d hd; simp [wsPageEnv, emptyPageEnv] at hd)

theorem toNat_charOfNat_of_valid (n : Nat) (h : n < 55296) :
    (Char.ofNat n).toNat = n := by
  unfold Char.ofNat
  rw [dif_pos (Or.inl (by omega))]
  simp [Char.ofNatAux, Char.toNat, UInt32.toNat]

theorem isWs_toLower (c : Char) : isWs c.toLower = isWs c := by
  unfold Char.toLower
  by_cases h : c.toNat ≥ 65 ∧ c.toNat ≤ 90
  · rw [if_pos h]
    have h1 : (Char.ofNat (c.toNat + 32)).toNat = c.toNat + 32 :=
      toNat_charOfNat_of_valid _ (by omega)
    simp only [isWs, h1, decide_eq_decide]
    omega
  · rw [if_neg h]


theorem trimRight_cons (c : Char) (cs : List Char) :
    trimRight (c :: cs) =
      match trimRight cs with
      | [] => if isWs c then [] else [c]
      | r => c :: r := rfl

theorem dropWhile_toLowerL (l : List Char) :
    (toLowerL l).dropWhile isWs = toLowerL (l.dropWhile isWs) := by
  induction l with
  | nil => rfl
  | cons c cs ih =>
    simp only [toLowerL] at ih ⊢
    simp only [List.map_cons, List.dropWhile_cons, isWs_toLower]
    by_cases h : isWs c <;> simp [h, ih]

theorem trimRight_toLowerL (l : List Char) :
    trimRight (toLowerL l) = toLowerL (trimRight l) := by
  induction l with
  | nil => rfl
  | cons c cs ih =>
    simp only [toLowerL] at ih ⊢
    simp only [List.map_cons]
    cases h : trimRight cs with
    | nil =>
      have h2 : trimRight (cs.map Char.toLower) = [] := by
        rw [ih, h]
        rfl
      rw [trimRight_cons, h2, trimRight_cons c cs, h]
      by_cases hc : isWs c
      · simp [isWs_toLower, hc]
      · simp [isWs_toLower, hc]
    | cons r rs =>
      have h2 : trimRight (cs.map Char.toLower) = r.toLower :: rs.map Char.toLower := by
        rw [ih, h]
        rfl
      rw [trimRight_cons, h2, trimRight_cons c cs, h]
      rfl

theorem jsTrim_toLowerL (l : List Char) :
    jsTrim (toLowerL l) = toLowerL (jsTrim l) := by
  unfold jsTrim
  rw [dropWhile_toLowerL, trimRight_toLowerL]

theorem trimRight_idem (l : List Char) : trimRight (trimRight l) = trimRight l := by
  induction l with
  | nil => rfl
  | cons c cs ih =>
    cases h : trimRight cs with
    | nil =>
      rw [trimRight_cons, h]
      by_cases hc : isWs c <;> simp [trimRight, hc]
    | cons r rs =>
      have h2 : trimRight (r :: rs) = r :: rs := h ▸ ih
      have h3 : trimRight (c :: cs) = c :: r :: rs := by
        rw [trimRight_cons, h]
      rw [h3, trimRight_cons, h2]

theorem trimRight_shape (a : Char) (as : List Char) :
    trimRight (a :: as) = [] ∨ ∃ t, trimRight (a :: as) = a :: t := by
  cases h : trimRight as with
  | nil =>
    by_cases hc : isWs a
    · left
      rw [trimRight_cons, h]
      simp [hc]
    · right
      refine ⟨[], ?_⟩
      rw [trimRight_cons, h]
      simp [hc]
  | cons r rs =>
    right
    refine ⟨r :: rs, ?_⟩
    rw [trimRight_cons, h]

theorem dropWhile_jsTrim (l : List Char) : (jsTrim l).dropWhile isWs = jsTrim l := by
  unfold jsTrim
  cases hd : l.dropWhile isWs with
  | nil => rfl
  | cons a as =>
    have ha : isWs a = false := by
      have hw := List.head?_dropWhile_not isWs l
      rw [hd] at hw
      simpa using hw
    rcases trimRight_shape a as with h | ⟨t, h⟩
    · rw [h]
      rfl
    · rw [h, List.dropWhile_cons, ha]
      simp

theorem jsTrim_idem (l : List Char) : jsTrim (jsTrim l) = jsTrim l := by
  have h1 := dropWhile_jsTrim l
  show trimRight ((jsTrim l).dropWhile isWs) = jsTrim l
  rw [h1]
  exact trimRight_idem _

theorem headingMatches_specNormalize (label : List Char) (h : Heading)
    (hm : headingMatches label h = true) :
    specNormalize h.text = specNormalize label := by
  have E : toLowerL (jsTrim h.text) = toLowerL label := by
    simpa [headingMatches] using hm
  unfold specNormalize
  rw [E]
  have E2 : toLowerL (jsTrim label) = toLowerL label := by
    calc toLowerL (jsTrim label)
        = jsTrim (toLowerL label) := (jsTrim_toLowerL label).symm
      _ = jsTrim (toLowerL (jsTrim h.text)) := by rw [E]
      _ = jsTrim (jsTrim (toLowerL h.text)) := by rw [jsTrim_toLowerL h.text]
      _ = jsTrim (toLowerL h.text) := jsTrim_idem _
      _ = toLowerL (jsTrim h.text) := jsTrim_toLowerL _
      _ = toLowerL label := E
  rw [E2]

/-- C6.  For every heading label: when no heading's normalised
(whitespace-collapsed, case-folded, trimmed) text equals the normalised
label, or when the matched heading has no enclosing section,
`getSectionByHeading` returns the empty sequence (and, being a total
function of the page inputs, never raises). -/
theorem getSectionByHeading_empty_cases (hs : List Heading) (label : List Char)
    (h : (∀ hh ∈ hs, specNormalize hh.text ≠ specNormalize label) ∨
         ∃ hh, hs.find? (headingMatches label) = some hh ∧ hh.section? = none) :
    getSectionByHeading hs label = [] := by
  rcases h with h | ⟨hh, hfind, hsec⟩
  · have hnone : hs.find? (headingMatches label) = none := by
      rw [List.find?_eq_none]
      intro a ha hmat
      exact h a ha (headingMatches_specNormalize label a hmat)
    unfold getSectionByHeading
    rw [hnone]
  · unfold getSectionByHeading
    rw [hfind]
    simp only [hsec]

/-- Witness for C6: the demo page has no heading normalising to
`activity`, so the lookup yields the empty sequence. -/
theorem getSectionByHeading_empty_cases_witness :
    getSectionByHeading demoSkillsPage ("Activity".data) = [] :=
  getSectionByHeading_empty_cases demoSkillsPage ("Activity".data)
    (Or.inl (by decide))

theorem collapseWsAux_cons_ws_true (a : Char) (as : List Char) (ha : isWs a = true) :
    collapseWsAux true (a :: as) = collapseWsAux true as := by
  simp [collapseWsAux, ha]

theorem collapseWsAux_cons_ws_false (a : Char) (as : List Char) (ha : isWs a = true) :
    collapseWsAux false (a :: as) = ' ' :: collapseWsAux true as := by
  simp [collapseWsAux, ha]

theorem collapseWsAux_cons_not_ws (b : Bool) (a : Char) (as : List Char)
    (ha : isWs a = false) :
    collapseWsAux b (a :: as) = a :: collapseWsAux false as := by
  cases b <;> simp [collapseWsAux, ha]

theorem mem_collapseWsAux (s : List Char) :
    ∀ (b : Bool) (c : Char), c ∈ collapseWsAux b s → c = ' ' ∨ c ∈ s := by
  induction s with
  | nil => intro b c hc; simp [collapseWsAux] at hc
  | cons a as ih =>
    intro b c hc
    by_cases ha : isWs a
    · cases b with
      | true =>
        rw [collapseWsAux_cons_ws_true a as ha] at hc
        rcases ih true c hc with h | h
        · exact Or.inl h
        · exact Or.inr (List.mem_cons_of_mem _ h)
      | false =>
        rw [collapseWsAux_cons_ws_false a as ha] at hc
        rcases List.mem_cons.mp hc with rfl | hc2
        · exact Or.inl rfl
        · rcases ih true c hc2 with h | h
          · exact Or.inl h
          · exact Or.inr (List.mem_cons_of_mem _ h)
    · rw [collapseWsAux_cons_not_ws b a as (by simpa using ha)] at hc
      rcases List.mem_cons.mp hc with rfl | hc2
      · exact Or.inr (List.mem_cons_self _ _)
      · rcases ih false c hc2 with h | h
        · exact Or.inl h
        · exact Or.inr (List.mem_cons_of_mem _ h)

theorem head?_collapseWsAux_true (s : List Char) :
    ∀ c, (collapseWsAux true s).head? = some c → isWs c = false := by
  induction s with
  | nil => intro c hc; simp [collapseWsAux] at hc
  | cons a as ih =>
    intro c hc
    by_cases ha : isWs a
    · rw [collapseWsAux_cons_ws_true a as ha] at hc
      exact ih c hc
    · rw [collapseWsAux_cons_not_ws true a as (by simpa using ha)] at hc
      simp only [List.head?_cons, Option.some.injEq] at hc
      subst hc
      simpa using ha

theorem collapsed_mem_collapseWsAux (s : List Char) :
    ∀ (b : Bool), ∀ c ∈ collapseWsAux b s, isWs c = true → c = ' ' := by
  induction s with
  | nil => intro b c hc; simp [collapseWsAux] at hc
  | cons a as ih =>
    intro b c hc hw
    by_cases ha : isWs a
    · cases b with
      | true =>
        rw [collapseWsAux_cons_ws_true a as ha] at hc
        exact ih true c hc hw
      | false =>
        rw [collapseWsAux_cons_ws_false a as ha] at hc
        rcases List.mem_cons.mp hc with rfl | hc2
        · rfl
        · exact ih true c hc2 hw
    · rw [collapseWsAux_cons_not_ws b a as (by simpa using ha)] at hc
      rcases List.mem_cons.mp hc with rfl | hc2
      · exact absurd hw (by simpa using ha)
      · exact ih false c hc2 hw

theorem chain'_collapseWsAux (s : List Char) :
    ∀ b, (collapseWsAux b s).Chain' NoTwoWs := by
  induction s with
  | nil => intro b; simp [collapseWsAux]
  | cons a as ih =>
    intro b
    by_cases ha : isWs a
    · cases b with
      | true =>
        rw [collapseWsAux_cons_ws_true a as ha]
        exact ih true
      | false =>
        rw [collapseWsAux_cons_ws_false a as ha]
        refine List.chain'_cons'.mpr ⟨?_, ih true⟩
        intro y hy hcon
        have hyf : isWs y = false :=
          head?_collapseWsAux_true as y (Option.mem_def.mp hy)
        rw [hyf] at hcon
        exact Bool.false_ne_true hcon.2
    · rw [collapseWsAux_cons_not_ws b a as (by simpa using ha)]
      refine List.chain'_cons'.mpr ⟨?_, ih false⟩
      intro y _ hcon
      exact ha hcon.1

theorem collapsed_collapseWs (s : List Char) : Collapsed (collapseWs s) :=
  ⟨collapsed_mem_collapseWsAux s false, chain'_collapseWsAux s false⟩

theorem collapseWsAux_true_of_head (l : List Char)
    (h : ∀ d, l.head? = some d → isWs d = false) :
    collapseWsAux true l = collapseWsAux false l := by
  cases l with
  | nil => rfl
  | cons d ds =>
    have hd : isWs d = false := h d rfl
    rw [collapseWsAux_cons_not_ws true d ds hd, collapseWsAux_cons_not_ws false d ds hd]

theorem collapseWs_eq_self : ∀ (l : List Char), Collapsed l → collapseWs l = l := by
  intro l
  induction l with
  | nil => intro _; rfl
  | cons a as ih =>
    intro h
    obtain ⟨hmem, hch⟩ := h
    have htail : Collapsed as :=
      ⟨fun c hc hw => hmem c (List.mem_cons_of_mem _ hc) hw,
       (List.chain'_cons'.mp hch).2⟩
    by_cases ha : isWs a
    · have ha2 : a = ' ' := hmem a (List.mem_cons_self _ _) ha
      show collapseWsAux false (a :: as) = a :: as
      rw [collapseWsAux_cons_ws_false a as ha]
      rw [collapseWsAux_true_of_head as ?hh]
      · rw [ha2]
        exact congrArg _ (ih htail)
      case hh =>
        intro d hd
        by_contra hcon
        have hdt : isWs d = true := by simpa using hcon
        exact (List.chain'_cons'.mp hch).1 d (Option.mem_def.mpr hd) ⟨ha, hdt⟩
    · show collapseWsAux false (a :: as) = a :: as
      rw [collapseWsAux_cons_not_ws false a as (by simpa using ha)]
      exact congrArg _ (ih htail)

theorem mem_trimRight (c : Char) : ∀ (l : List Char), c ∈ trimRight l → c ∈ l := by
  intro l
  induction l with
  | nil => intro h; simpa [trimRight] using h
  | cons a as ih =>
    intro h
    rw [trimRight_cons] at h
    cases ht : trimRight as with
    | nil =>
      rw [ht] at h
      by_cases ha : isWs a
      · simp [ha] at h
      · simp [ha] at h
        subst h
        exact List.mem_cons_self _ _
    | cons r rs =>
      rw [ht] at h
      rcases List.mem_cons.mp h with rfl | h2
      · exact List.mem_cons_self _ _
      · exact List.mem_cons_of_mem _ (ih (ht.symm ▸ h2))

theorem chain'_dropWhile (l : List Char) (h : l.Chain' NoTwoWs) :
    (l.dropWhile isWs).Chain' NoTwoWs := by
  induction l with
  | nil => simpa using h
  | cons a as ih =>
    rw [List.dropWhile_cons]
    by_cases ha : isWs a
    · rw [if_pos (by simpa using ha)]
      exact ih (List.chain'_cons'.mp h).2
    · rw [if_neg (by simpa using ha)]
      exact h

theorem chain'_trimRight : ∀ (l : List Char), l.Chain' NoTwoWs →
    (trimRight l).Chain' NoTwoWs := by
  intro l
  induction l with
  | nil => intro h; simpa [trimRight] using h
  | cons a as ih =>
    intro h
    rw [trimRight_cons]
    cases ht : trimRight as with
    | nil =>
      by_cases ha : isWs a <;> simp [ha]
    | cons r rs =>
      have h2 : (r :: rs).Chain' NoTwoWs := ht ▸ ih (List.chain'_cons'.mp h).2
      refine List.chain'_cons'.mpr ⟨?_, h2⟩
      intro y hy
      have hy2 : r = y := by simpa using Option.mem_def.mp hy
      cases as with
      | nil => simp [trimRight] at ht
      | cons b bs =>
        rcases trimRight_shape b bs with hsh | ⟨t, hsh⟩
        · rw [hsh] at ht
          cases ht
        · rw [hsh] at ht
          injection ht with hbr _
          have hab : NoTwoWs a b := (List.chain'_cons'.mp h).1 b (by simp)
          rw [hbr, hy2] at hab
          exact hab

theorem collapsed_jsTrim (l : List Char) (h : Collapsed l) : Collapsed (jsTrim l) := by
  obtain ⟨hmem, hch⟩ := h
  constructor
  · intro c hc hw
    exact hmem c
      ((List.dropWhile_sublist isWs).subset (mem_trimRight c _ hc)) hw
  · exact chain'_trimRight _ (chain'_dropWhile l hch)

theorem not_mem_collapseWs_amp (s : List Char) (h : ('&' : Char) ∉ s) :
    ('&' : Char) ∉ collapseWs s := by
  intro hc
  rcases mem_collapseWsAux s false '&' hc with h1 | h1
  · exact absurd h1 (by decide)
  · exact h h1

theorem not_mem_jsTrim (c : Char) (s : List Char) (h : c ∉ s) : c ∉ jsTrim s :=
  fun hc => h ((List.dropWhile_sublist isWs).subset (mem_trimRight c _ hc))

theorem replAllFuel_eq_self (pat repl : List Char) (hamp : ('&' : Char) ∈ pat) :
    ∀ (f : Nat) (s : List Char), ('&' : Char) ∉ s → replAllFuel pat repl f s = s := by
  intro f
  induction f with
  | zero => intro s _; rfl
  | succ f ih =>
    intro s h
    cases s with
    | nil => rfl
    | cons c cs =>
      have hp : pat.isPrefixOf (c :: cs) = false := by
        cases hb : pat.isPrefixOf (c :: cs) with
        | false => rfl
        | true => exact absurd ((List.isPrefixOf_iff_prefix.mp hb).subset hamp) h
      simp only [replAllFuel, hp, Bool.and_false, Bool.false_eq_true, if_false]
      exact congrArg _ (ih cs fun hc => h (List.mem_cons_of_mem _ hc))

theorem replAll_eq_self (pat repl s : List Char) (hamp : ('&' : Char) ∈ pat)
    (h : ('&' : Char) ∉ s) : replAll pat repl s = s :=
  replAllFuel_eq_self pat repl hamp s.length s h

theorem decDecFuel_eq_self :
    ∀ (f : Nat) (s : List Char), ('&' : Char) ∉ s → decDecFuel f s = s := by
  intro f
  induction f with
  | zero => intro s _; rfl
  | succ f ih =>
    intro s h
    cases s with
    | nil => rfl
    | cons c cs =>
      have hc : ¬(c = '&') := fun e => h (by rw [← e]; exact List.mem_cons_self c cs)
      simp only [decDecFuel, if_neg hc]
      exact congrArg _ (ih cs fun hx => h (List.mem_cons_of_mem _ hx))

theorem hexDecFuel_eq_self :
    ∀ (f : Nat) (s : List Char), ('&' : Char) ∉ s → hexDecFuel f s = s := by
  intro f
  induction f with
  | zero => intro s _; rfl
  | succ f ih =>
    intro s h
    cases s with
    | nil => rfl
    | cons c cs =>
      have hc : ¬(c = '&') := fun e => h (by rw [← e]; exact List.mem_cons_self c cs)
      simp only [hexDecFuel, if_neg hc]
      exact congrArg _ (ih cs fun hx => h (List.mem_cons_of_mem _ hx))

theorem cleanText_amp_free (s : List Char) (h : ('&' : Char) ∉ s) :
    cleanText s = jsTrim (collapseWs s) := by
  have h0 : ('&' : Char) ∉ collapseWs s := not_mem_collapseWs_amp s h
  unfold cleanText
  rw [replAll_eq_self _ _ _ (by decide) h0]
  rw [replAll_eq_self _ _ _ (by decide) h0]
  rw [replAll_eq_self _ _ _ (by decide) h0]
  rw [replAll_eq_self _ _ _ (by decide) h0]
  rw [replAll_eq_self _ _ _ (by decide) h0]
  rw [replAll_eq_self _ _ _ (by decide) h0]
  rw [replAll_eq_self _ _ _ (by decide) h0]
  rw [show decDec (collapseWs s) = collapseWs s from
    decDecFuel_eq_self (collapseWs s).length _ h0]
  rw [show hexDec (collapseWs s) = collapseWs s from
    hexDecFuel_eq_self (collapseWs s).length _ h0]

/-- C8 counterexample.  `cleanText` is not idempotent: entity decoding runs
after whitespace collapsing, so decoding `&#32;&#32;` leaves the double
space `"a  b"`, which a second application collapses to `"a b"`. -/
theorem cleanText_not_idem :
    cleanText (cleanText ("a&#32;&#32;b".data)) ≠ cleanText ("a&#32;&#32;b".data) := by
  decide

/-- C8 (amended).  `cleanText` is idempotent on every string free of the
entity-escape character `&`: there it reduces to whitespace collapsing plus
trimming, whose composite is idempotent.  (With entities present, decoding
can reintroduce whitespace runs or entity spellings, as the counterexample
shows.) -/
theorem cleanText_idem_amp_free (s : List Char) (h : ('&' : Char) ∉ s) :
    cleanText (cleanText s) = cleanText s := by
  rw [cleanText_amp_free s h]
  have h2 : ('&' : Char) ∉ jsTrim (collapseWs s) :=
    not_mem_jsTrim _ _ (not_mem_collapseWs_amp s h)
  rw [cleanText_amp_free _ h2]
  rw [show collapseWs (jsTrim (collapseWs s)) = jsTrim (collapseWs s) from
    collapseWs_eq_self _ (collapsed_jsTrim _ (collapsed_collapseWs s))]
  exact jsTrim_idem _

/-- Witness for C8 (amended) on an ampersand-free name string. -/
theorem cleanText_idem_amp_free_witness :
    cleanText (cleanText ("John  Doe ".data)) = cleanText ("John  Doe ".data) :=
  cleanText_idem_amp_free ("John  Doe ".data) (by decide)
